import Mathlib

/-!
Verification of the inventory-synchronization pipeline (seller.py / market.py).

The definitions below are a shallow embedding of the two Python modules:
inventory rows and update records become structures, the pure transforms
(`create_stocks`, `create_prices`, `price_conversion`, `divide`) become
computable Lean functions, fallible integer parsing becomes `Option`, and the
orchestrators (`main` in each module) become explicit state-passing functions
over an effect record that supplies the outcome of each external call.
-/

namespace SellerApis

/-- One row of the inventory spreadsheet: the Python dicts with keys
"Код" (code), "Количество" (quantity, raw string) and "Цена" (price, raw
string).  The Python code wraps the code and quantity in `str(...)`; we model
the fields as strings directly. -/
structure InvRecord where
  code : String
  qty : String
  price : String
deriving DecidableEq

/-- Numeric value of a digit string, most significant digit first (the value
Python's `int` returns on a plain digit string, leading zeros allowed). -/
def digitsVal (cs : List Char) : Nat :=
  cs.foldl (fun a c => 10 * a + (c.toNat - 48)) 0

/-- Strip leading and trailing whitespace, as Python's `int` does before
parsing. -/
def stripWs (cs : List Char) : List Char :=
  ((cs.dropWhile Char.isWhitespace).reverse.dropWhile Char.isWhitespace).reverse

/-- Core of Python's `int(...)` on an already-stripped character list: an
optional sign followed by a nonempty run of decimal digits; anything else
raises `ValueError`, modelled as `none`.  (Digit-group underscores, which
Python also accepts, are omitted; no input in this development uses them.) -/
def pyIntCore (cs : List Char) : Option Int :=
  match cs with
  | [] => none
  | c :: rest =>
    if c = '+' then
      if rest ≠ [] ∧ rest.all Char.isDigit then some (digitsVal rest) else none
    else if c = '-' then
      if rest ≠ [] ∧ rest.all Char.isDigit then some (-(digitsVal rest : Int)) else none
    else if (c :: rest).all Char.isDigit then some (digitsVal (c :: rest)) else none

/-- Model of Python's `int(s)` for a string `s`: `none` models a raised
`ValueError`. -/
def pyInt (s : String) : Option Int :=
  pyIntCore (stripWs s.data)

/-- Quantity normalization shared by both `create_stocks` functions
(seller.py lines 258-264, market.py lines 207-213): `">10"` becomes 100,
`"1"` becomes 0, anything else is handed to Python's `int`. -/
def normalizeQty (count : String) : Option Int :=
  if count = ">10" then some 100
  else if count = "1" then some 0
  else pyInt count

/-- Python's `price.split(".")` on a character list: split on every `'.'`,
always returning at least one (possibly empty) piece. -/
def splitOnDot : List Char → List (List Char)
  | [] => [[]]
  | c :: cs =>
    if c = '.' then [] :: splitOnDot cs
    else
      match splitOnDot cs with
      | [] => [[c]]
      | h :: t => (c :: h) :: t

/-- seller.py `price_conversion` (line 335):
`re.sub("[^0-9]", "", price.split(".")[0])` — keep only the digits of the
piece before the first dot. -/
def price_conversion (price : String) : String :=
  ⟨((splitOnDot price.data).headD []).filter Char.isDigit⟩

/-- Modelled from the spec's wording of rule 4.4 ("take the substring before
the first `.`, strip every non-digit character"), to be compared with
`price_conversion` as translated from the source. -/
def beforeFirstDotDigits (price : String) : String :=
  ⟨(price.data.takeWhile (fun c => c ≠ '.')).filter Char.isDigit⟩

/-- Stock record built by seller.py `create_stocks`:
`{"offer_id": ..., "stock": ...}`. -/
structure SellerStock where
  offer_id : String
  stock : Int
deriving DecidableEq

/-- Element of the `items` list of a market stock record:
`{"count": ..., "type": "FIT", "updatedAt": date}`. -/
structure MStockItem where
  count : Int
  type : String
  updatedAt : String
deriving DecidableEq

/-- Stock record built by market.py `create_stocks`:
`{"sku": ..., "warehouseId": ..., "items": [...]}`. -/
structure MStock where
  sku : String
  warehouseId : String
  items : List MStockItem
deriving DecidableEq

/-- Price record built by seller.py `create_prices` (lines 303-309). -/
structure SellerPrice where
  auto_action_enabled : String
  currency_code : String
  offer_id : String
  old_price : String
  price : String
deriving DecidableEq

/-- Price record built by market.py `create_prices` (lines 281-292):
`{"id": ..., "price": {"value": int(...), "currencyId": "RUR"}}` (the inner
dict is flattened into the two fields `value` and `currencyId`). -/
structure MPrice where
  id : String
  value : Int
  currencyId : String
deriving DecidableEq

/-- Shared skeleton of the matching loop of both `create_stocks` functions
(seller.py lines 255-266, market.py lines 203-227): walk the inventory rows;
when a row's code is in the current offer-id list, normalize its quantity
(`none` models the `ValueError` of `int`), emit `mk code stock`, and remove
the code's first occurrence from the list (Python `list.remove`).  Returns
the emitted records together with the final state of the offer-id list. -/
def createStocksAux {σ : Type} (mk : String → Int → σ) :
    List InvRecord → List String → Option (List σ × List String)
  | [], offer_ids => some ([], offer_ids)
  | watch :: rest, offer_ids =>
    if watch.code ∈ offer_ids then
      match normalizeQty watch.qty with
      | none => none
      | some stock =>
        match createStocksAux mk rest (offer_ids.erase watch.code) with
        | none => none
        | some p => some (mk watch.code stock :: p.1, p.2)
    else createStocksAux mk rest offer_ids

/-- Shared shape of both `create_stocks` functions: the matching loop
followed by the zero-fill loop ("Добавим недостающее из загруженного") that
appends a zero-quantity record for every offer id still in the list.  The
second component is the final state of the (Python-mutable) offer-id list. -/
def create_stocks_gen {σ : Type} (mk : String → Int → σ)
    (watch_remnants : List InvRecord) (offer_ids : List String) :
    Option (List σ × List String) :=
  (createStocksAux mk watch_remnants offer_ids).map
    (fun p => (p.1 ++ p.2.map (fun id => mk id 0), p.2))

/-- seller.py `create_stocks` (lines 226-270). -/
def seller_create_stocks (watch_remnants : List InvRecord) (offer_ids : List String) :
    Option (List SellerStock × List String) :=
  create_stocks_gen (fun c q => SellerStock.mk c q) watch_remnants offer_ids

/-- market.py `create_stocks` (lines 168-243); `date` stands for the
timestamp string computed once at the top of the function. -/
def market_create_stocks (watch_remnants : List InvRecord) (offer_ids : List String)
    (warehouse_id date : String) : Option (List MStock × List String) :=
  create_stocks_gen (fun c q => MStock.mk c warehouse_id [MStockItem.mk q ("FIT") date])
    watch_remnants offer_ids

/-- seller.py `create_prices` (lines 300-311): one record per inventory row
whose code is in the offer-id list; the list itself is never modified, which
the unchanged second component records. -/
def seller_create_prices (watch_remnants : List InvRecord) (offer_ids : List String) :
    List SellerPrice × List String :=
  (watch_remnants.filterMap (fun watch =>
      if watch.code ∈ offer_ids then
        some (SellerPrice.mk ("UNKNOWN") ("RUB") watch.code ("0") (price_conversion watch.price))
      else none),
   offer_ids)

/-- Matching loop of market.py `create_prices` (lines 278-294):
`int(price_conversion(...))` may raise, modelled as `none` for the whole
call. -/
def marketPricesAux (offer_ids : List String) : List InvRecord → Option (List MPrice)
  | [] => some []
  | watch :: rest =>
    if watch.code ∈ offer_ids then
      match pyInt (price_conversion watch.price) with
      | none => none
      | some v => (marketPricesAux offer_ids rest).map (fun ps => MPrice.mk watch.code v ("RUR") :: ps)
    else marketPricesAux offer_ids rest

/-- market.py `create_prices` (lines 246-294). -/
def market_create_prices (watch_remnants : List InvRecord) (offer_ids : List String) :
    Option (List MPrice) :=
  marketPricesAux offer_ids watch_remnants

/-- seller.py `divide` (lines 338-361): `lst[i : i + n]` for
`i in range(0, len(lst), n)`; `range(0, L, n)` has `(L + n - 1) / n`
elements, the ceiling of `L / n`. -/
def divide {α : Type} (lst : List α) (n : Nat) : List (List α) :=
  (List.range ((lst.length + n - 1) / n)).map (fun k => (lst.drop (k * n)).take n)

/-- Chunk size of the stock-upload loop in seller.py `main` (line 390). -/
def seller_main_stock_chunk : Nat := 100

/-- Chunk size of the price-upload loop in seller.py `main` (line 394). -/
def seller_main_price_chunk : Nat := 900

/-- Chunk size of the loop in seller.py `upload_prices` (line 367). -/
def seller_upload_prices_chunk : Nat := 1000

/-- Chunk size of the loop in seller.py `upload_stocks` (line 375). -/
def seller_upload_stocks_chunk : Nat := 100

/-- Chunk size of the loop in market.py `upload_prices` (line 300). -/
def market_upload_prices_chunk : Nat := 500

/-- Chunk size of the loop in market.py `upload_stocks` (line 308). -/
def market_upload_stocks_chunk : Nat := 2000

/-- Chunk size of the two stock-upload loops in market.py `main`
(lines 330 and 339). -/
def market_main_stock_chunk : Nat := 2000

/-- Every chunk size appearing at a call site that splits update records for
upload, one entry per call site, in source order: seller `main` stocks,
seller `main` prices, seller `upload_prices`, seller `upload_stocks`,
market `upload_prices`, market `upload_stocks`, market `main` FBS stocks,
market `main` DBS stocks. -/
def uploadChunkSizes : List Nat :=
  [seller_main_stock_chunk, seller_main_price_chunk, seller_upload_prices_chunk,
   seller_upload_stocks_chunk, market_upload_prices_chunk, market_upload_stocks_chunk,
   market_main_stock_chunk, market_main_stock_chunk]

/-- Batches sent by the loop in seller.py `main` for stocks: one
`update_stocks` call per chunk, in order. -/
def seller_main_stock_batches (stocks : List SellerStock) : List (List SellerStock) :=
  divide stocks seller_main_stock_chunk

/-- Batches sent by the loop in seller.py `main` for prices. -/
def seller_main_price_batches (prices : List SellerPrice) : List (List SellerPrice) :=
  divide prices seller_main_price_chunk

/-- Batches sent by the loop in seller.py `upload_prices`. -/
def seller_upload_prices_batches (prices : List SellerPrice) : List (List SellerPrice) :=
  divide prices seller_upload_prices_chunk

/-- Batches sent by the loop in seller.py `upload_stocks`. -/
def seller_upload_stocks_batches (stocks : List SellerStock) : List (List SellerStock) :=
  divide stocks seller_upload_stocks_chunk

/-- Batches sent by the loop in market.py `upload_prices`. -/
def market_upload_prices_batches (prices : List MPrice) : List (List MPrice) :=
  divide prices market_upload_prices_chunk

/-- Batches sent by the loop in market.py `upload_stocks`. -/
def market_upload_stocks_batches (stocks : List MStock) : List (List MStock) :=
  divide stocks market_upload_stocks_chunk

/-- Batches sent by each stock-upload loop in market.py `main`. -/
def market_main_stock_batches (stocks : List MStock) : List (List MStock) :=
  divide stocks market_main_stock_chunk

/-- The exception kinds distinguished by the orchestrators' `except` clauses:
`requests.exceptions.ReadTimeout`, `requests.exceptions.ConnectionError`
(with its message) and every other exception (with its message). -/
inductive PyExc where
  | readTimeout : PyExc
  | connectionError : String → PyExc
  | otherError : String → PyExc
deriving DecidableEq

/-- Observable outcome of one orchestrator run: normal completion, one of the
three printed error reports of the `except` clauses, or an exception that
escaped the orchestrator uncaught. -/
inductive Report where
  | ok : Report
  | timeoutMsg : Report
  | connMsg : String → Report
  | genericMsg : String → Report
  | uncaught : PyExc → Report
deriving DecidableEq

/-- The `except` ladder shared by both `main` functions (seller.py lines
396-401, market.py lines 343-348): `ReadTimeout` prints the dedicated
timed-out message, `ConnectionError` prints the underlying error, anything
else prints generically. -/
def handleExc : PyExc → Report
  | .readTimeout => .timeoutMsg
  | .connectionError e => .connMsg e
  | .otherError e => .genericMsg e

/-- Outcomes of the external calls made by seller.py `main`: the offer-id
fetch, the spreadsheet download, and the per-chunk upload calls. -/
structure SellerFx where
  fetchIds : Except PyExc (List String)
  download : Except PyExc (List InvRecord)
  sendStocks : List SellerStock → Except PyExc Unit
  sendPrices : List SellerPrice → Except PyExc Unit

/-- Issue one upload call per chunk, in order, stopping at the first failing
call (whose exception propagates), as the `for ... in list(divide(...))`
loops do. -/
def sendAll {β : Type} (send : List β → Except PyExc Unit) :
    List (List β) → Except PyExc Unit
  | [] => .ok ()
  | c :: cs =>
    match send c with
    | .error e => .error e
    | .ok _ => sendAll send cs

/-- Body of the `try` block of seller.py `main` (lines 386-395): fetch offer
ids, download the spreadsheet, build and upload stocks in chunks of 100,
then build and upload prices in chunks of 900; the offer-id list mutated by
`create_stocks` is the one `create_prices` receives.  A `ValueError` from
`int` inside `create_stocks` is an `otherError`. -/
def seller_try (fx : SellerFx) : Except PyExc Unit := do
  let offer_ids ← fx.fetchIds
  let watch_remnants ← fx.download
  match seller_create_stocks watch_remnants offer_ids with
  | none => .error (.otherError ("ValueError"))
  | some p =>
    match sendAll fx.sendStocks (divide p.1 seller_main_stock_chunk) with
    | .error e => .error e
    | .ok _ =>
      sendAll fx.sendPrices (divide (seller_create_prices watch_remnants p.2).1 seller_main_price_chunk)

/-- seller.py `main` (lines 381-401): the whole pipeline inside `try`, with
the three `except` clauses; no exception escapes. -/
def seller_main (fx : SellerFx) : Report :=
  match seller_try fx with
  | .ok _ => .ok
  | .error e => handleExc e

/-- An update API request issued by market.py `main`: a stock update or a
price update, tagged with the campaign id. -/
inductive MApiCall where
  | stockUpdate : String → List MStock → MApiCall
  | priceUpdate : String → List MPrice → MApiCall
deriving DecidableEq

/-- Outcomes of the external calls made by market.py `main`, plus the
environment-supplied campaign/warehouse ids and the timestamp computed by
`create_stocks`. -/
structure MarketFx where
  campaign_fbs_id : String
  campaign_dbs_id : String
  warehouse_fbs_id : String
  warehouse_dbs_id : String
  date : String
  download : Except PyExc (List InvRecord)
  fetchIds : String → Except PyExc (List String)
  sendStocks : String → List MStock → Except PyExc Unit

/-- One `update_stocks` call per chunk, in order, recording each attempted
call in the trace; a failing call propagates its exception and aborts the
remaining chunks. -/
def sendAllTr (campaign : String) (send : String → List MStock → Except PyExc Unit) :
    List (List MStock) → Except PyExc Unit × List MApiCall
  | [] => (.ok (), [])
  | c :: cs =>
    match send campaign c with
    | .error e => (.error e, [.stockUpdate campaign c])
    | .ok _ =>
      let p := sendAllTr campaign send cs
      (p.1, .stockUpdate campaign c :: p.2)

/-- One campaign's section of the `try` block of market.py `main`: fetch
offer ids, build stocks, upload them in chunks of 2000.  The following
`upload_prices(watch_remnants, campaign_id, market_token)` statement calls
an `async def` without awaiting it: it only creates a coroutine object and
the body never runs, so no price-update call is issued or recorded. -/
def market_campaign (fx : MarketFx) (campaign warehouse : String)
    (watch_remnants : List InvRecord) : Except PyExc Unit × List MApiCall :=
  match fx.fetchIds campaign with
  | .error e => (.error e, [])
  | .ok offer_ids =>
    match market_create_stocks watch_remnants offer_ids warehouse fx.date with
    | none => (.error (.otherError ("ValueError")), [])
    | some p => sendAllTr campaign fx.sendStocks (divide p.1 market_main_stock_chunk)

/-- The `try` block of market.py `main` (lines 326-342): the FBS section
then, if it succeeded, the DBS section. -/
def market_try (fx : MarketFx) (watch_remnants : List InvRecord) :
    Except PyExc Unit × List MApiCall :=
  match market_campaign fx fx.campaign_fbs_id fx.warehouse_fbs_id watch_remnants with
  | (.error e, trace) => (.error e, trace)
  | (.ok _, trace) =>
    match market_campaign fx fx.campaign_dbs_id fx.warehouse_dbs_id watch_remnants with
    | (res, trace2) => (res, trace ++ trace2)

/-- market.py `main` (lines 316-348).  `watch_remnants = download_stock()`
(line 324) runs BEFORE the `try` statement, so an exception raised there
escapes the orchestrator uncaught; everything inside `try` is classified by
the `except` ladder.  Returns the report together with the trace of update
calls issued. -/
def market_main (fx : MarketFx) : Report × List MApiCall :=
  match fx.download with
  | .error e => (.uncaught e, [])
  | .ok watch_remnants =>
    match market_try fx watch_remnants with
    | (.ok _, trace) => (.ok, trace)
    | (.error e, trace) => (handleExc e, trace)

/-- The `update_price` calls the body of market.py `upload_prices` (lines
297-302) would issue for a computed price list, were the coroutine ever
awaited: one per chunk of 500, in order. -/
def market_upload_prices_calls (campaign : String) (prices : List MPrice) : List MApiCall :=
  (divide prices market_upload_prices_chunk).map (MApiCall.priceUpdate campaign)

/-- The raw price string 5’990.00 руб. of the spec's examples, with an ASCII
apostrophe (written `\x27`) as thousands separator. -/
def samplePrice5990 : String :=
  String.mk ['5', '\x27', '9', '9', '0', '.', '0', '0', ' ', 'р', 'у', 'б', '.']

/-- The raw price string 1’200.00 руб. of the spec's examples, with an ASCII
apostrophe (written `\x27`) as thousands separator. -/
def samplePrice1200 : String :=
  String.mk ['1', '\x27', '2', '0', '0', '.', '0', '0', ' ', 'р', 'у', 'б', '.']

/-! Helper lemmas about `splitOnDot` and `pyInt`. -/

theorem splitOnDot_ne_nil (cs : List Char) : splitOnDot cs ≠ [] := by
  cases cs with
  | nil => simp [splitOnDot]
  | cons c rest =>
    simp only [splitOnDot]
    split
    · simp
    · cases h : splitOnDot rest <;> simp

theorem splitOnDot_headD (cs : List Char) :
    (splitOnDot cs).headD [] = cs.takeWhile (fun c => c ≠ '.') := by
  induction cs with
  | nil => simp [splitOnDot]
  | cons c rest ih =>
    simp only [splitOnDot, List.takeWhile]
    by_cases hc : c = '.'
    · simp [hc]
    · simp only [if_neg hc]
      cases h : splitOnDot rest with
      | nil => exact absurd h (splitOnDot_ne_nil rest)
      | cons hd tl =>
        rw [h] at ih
        simp only [List.headD_cons] at ih
        simp [hc, ih]

theorem price_conversion_eq_spec (p : String) :
    price_conversion p = beforeFirstDotDigits p := by
  unfold price_conversion beforeFirstDotDigits
  rw [splitOnDot_headD]

theorem price_conversion_all_digits (p : String) :
    (price_conversion p).data.all Char.isDigit := by
  simp only [price_conversion, List.all_eq_true]
  intro c hc
  exact (List.mem_filter.mp hc).2

theorem isDigit_not_whitespace {c : Char} (h : c.isDigit) : c.isWhitespace = false := by
  cases hb : c.isWhitespace with
  | false => rfl
  | true =>
    have hd : ((c = ' ' ∨ c = '\t') ∨ c = '\r') ∨ c = '\n' := by
      simpa [Char.isWhitespace] using hb
    rcases hd with ((h1 | h1) | h1) | h1 <;> (subst h1 ; exact absurd h (by decide))

theorem dropWhile_of_all_digits {cs : List Char} (h : cs.all Char.isDigit) :
    cs.dropWhile Char.isWhitespace = cs := by
  cases cs with
  | nil => rfl
  | cons c rest =>
    simp only [List.all_cons, Bool.and_eq_true] at h
    simp [List.dropWhile_cons, isDigit_not_whitespace h.1]

theorem stripWs_of_all_digits {cs : List Char} (h : cs.all Char.isDigit) :
    stripWs cs = cs := by
  have hrev : cs.reverse.all Char.isDigit := by
    simp only [List.all_eq_true] at h ⊢
    intro c hc
    exact h c (List.mem_reverse.mp hc)
  simp [stripWs, dropWhile_of_all_digits h, dropWhile_of_all_digits hrev]

theorem pyInt_of_digits {cs : List Char} (hne : cs ≠ []) (h : cs.all Char.isDigit) :
    pyInt ⟨cs⟩ = some (digitsVal cs) := by
  rw [pyInt]
  show pyIntCore (stripWs cs) = _
  rw [stripWs_of_all_digits h]
  cases cs with
  | nil => exact absurd rfl hne
  | cons c rest =>
    have hc : c.isDigit := by
      simp only [List.all_cons, Bool.and_eq_true] at h
      exact h.1
    have hplus : c ≠ '+' := fun he => by rw [he] at hc ; exact absurd hc (by decide)
    have hminus : c ≠ '-' := fun he => by rw [he] at hc ; exact absurd hc (by decide)
    simp [pyIntCore, hplus, hminus, h]

/-! Helper lemmas about `divide`. -/

theorem length_divide {α : Type} (lst : List α) (n : Nat) :
    (divide lst n).length = (lst.length + n - 1) / n := by
  simp [divide]

theorem divide_nil {α : Type} (n : Nat) : divide ([] : List α) n = [] := by
  have h : (n - 1) / n = 0 := by
    cases n with
    | zero => simp
    | succ m => exact Nat.div_eq_of_lt (by omega)
  simp [divide, h]

theorem divide_cons {α : Type} (n : Nat) (hn : 0 < n) (lst : List α) (h : lst ≠ []) :
    divide lst n = lst.take n :: divide (lst.drop n) n := by
  have hL : 0 < lst.length := List.length_pos.mpr h
  have hc : (lst.length + n - 1) / n = (lst.length - 1) / n + 1 := by
    have he : lst.length + n - 1 = (lst.length - 1) + n := by omega
    rw [he, Nat.add_div_right _ hn]
  have hc2 : ((lst.drop n).length + n - 1) / n = (lst.length - 1) / n := by
    rw [List.length_drop]
    rcases le_or_lt n lst.length with hle | hlt
    · congr 1
      omega
    · have h1 : lst.length - n = 0 := by omega
      rw [h1, Nat.div_eq_of_lt (by omega), Nat.div_eq_of_lt (by omega)]
  unfold divide
  rw [hc, hc2, List.range_succ_eq_map, List.map_cons, List.map_map]
  congr 1
  · simp
  · apply List.map_congr_left
    intro k _
    simp only [Function.comp_apply, List.drop_drop]
    have hmul : (k + 1) * n = n + k * n := by
      rw [Nat.succ_mul, Nat.add_comm]
    rw [hmul]

theorem divide_flatten {α : Type} (n : Nat) (hn : 0 < n) (lst : List α) :
    (divide lst n).flatten = lst := by
  generalize hk : lst.length = k
  induction k using Nat.strong_induction_on generalizing lst with
  | _ k ih =>
    by_cases h : lst = []
    · subst h
      rw [divide_nil]
      rfl
    · have hL : 0 < lst.length := List.length_pos.mpr h
      rw [divide_cons n hn lst h, List.flatten_cons,
        ih ((lst.drop n).length) (by simp ; omega) (lst.drop n) rfl,
        List.take_append_drop]

theorem divide_getD {α : Type} (n i : Nat) (lst : List α)
    (h : i < (divide lst n).length) :
    (divide lst n).getD i [] = (lst.drop (i * n)).take n := by
  rw [List.getD_eq_getElem _ _ h]
  simp [divide]

theorem divide_getD_length {α : Type} (n i : Nat) (hn : 0 < n) (lst : List α)
    (h : i + 1 < (divide lst n).length) :
    ((divide lst n).getD i []).length = n := by
  rw [divide_getD n i lst (by omega)]
  rw [length_divide] at h
  have h2 : i + 2 ≤ (lst.length + n - 1) / n := by omega
  have h3 : (i + 2) * n ≤ lst.length + n - 1 := (Nat.le_div_iff_mul_le hn).mp h2
  simp only [List.length_take, List.length_drop]
  have h4 : (i + 2) * n = i * n + n + n := by ring
  omega

theorem divide_mem {α : Type} {n : Nat} {lst : List α} {c : List α}
    (hn : 0 < n) (hc : c ∈ divide lst n) : c ≠ [] ∧ c.length ≤ n := by
  simp only [divide, List.mem_map, List.mem_range] at hc
  obtain ⟨k, hk, rfl⟩ := hc
  have h2 : k + 1 ≤ (lst.length + n - 1) / n := hk
  have h3 : (k + 1) * n ≤ lst.length + n - 1 := (Nat.le_div_iff_mul_le hn).mp h2
  have h4 : (k + 1) * n = k * n + n := by ring
  have h5 : k * n < lst.length := by omega
  constructor
  · rw [← List.length_pos]
    simp only [List.length_take, List.length_drop]
    omega
  · simp only [List.length_take, List.length_drop]
    omega

theorem createStocksAux_subset {σ : Type} (mk : String → Int → σ) :
    ∀ (ws : List InvRecord) (ids : List String) (p : List σ × List String),
      createStocksAux mk ws ids = some p → ∀ x ∈ p.2, x ∈ ids := by
  intro ws
  induction ws with
  | nil =>
    intro ids p h x hx
    simp only [createStocksAux, Option.some.injEq] at h
    subst h
    exact hx
  | cons w rest ih =>
    intro ids p h x hx
    simp only [createStocksAux] at h
    by_cases hmem : w.code ∈ ids
    · rw [if_pos hmem] at h
      cases hq : normalizeQty w.qty with
      | none => rw [hq] at h ; exact absurd h (by simp)
      | some q =>
        rw [hq] at h
        cases ha : createStocksAux mk rest (ids.erase w.code) with
        | none => rw [ha] at h ; exact absurd h (by simp)
        | some p2 =>
          rw [ha] at h
          simp only [Option.some.injEq] at h
          subst h
          exact List.erase_subset _ _ (ih _ p2 ha x hx)
    · rw [if_neg hmem] at h
      exact ih _ p h x hx

theorem createStocksAux_perm {σ : Type} (mk : String → Int → σ) (proj : σ → String)
    (hproj : ∀ c q, proj (mk c q) = c) :
    ∀ (ws : List InvRecord) (ids : List String) (p : List σ × List String),
      createStocksAux mk ws ids = some p → (p.1.map proj ++ p.2).Perm ids := by
  intro ws
  induction ws with
  | nil =>
    intro ids p h
    simp only [createStocksAux, Option.some.injEq] at h
    subst h
    simp
  | cons w rest ih =>
    intro ids p h
    simp only [createStocksAux] at h
    by_cases hmem : w.code ∈ ids
    · rw [if_pos hmem] at h
      cases hq : normalizeQty w.qty with
      | none => rw [hq] at h ; exact absurd h (by simp)
      | some q =>
        rw [hq] at h
        cases ha : createStocksAux mk rest (ids.erase w.code) with
        | none => rw [ha] at h ; exact absurd h (by simp)
        | some p2 =>
          rw [ha] at h
          simp only [Option.some.injEq] at h
          subst h
          have hperm := ih _ p2 ha
          have h2 : ids.Perm (w.code :: ids.erase w.code) := List.perm_cons_erase hmem
          have h3 : ((mk w.code q :: p2.1).map proj ++ p2.2)
              = w.code :: (p2.1.map proj ++ p2.2) := by simp [hproj]
          rw [h3]
          exact (hperm.cons w.code).trans h2.symm
    · rw [if_neg hmem] at h
      exact ih _ p h

theorem createStocksAux_leftover {σ : Type} (mk : String → Int → σ) :
    ∀ (ws : List InvRecord) (ids : List String) (p : List σ × List String),
      ids.Nodup → createStocksAux mk ws ids = some p →
      ∀ x ∈ p.2, ∀ w ∈ ws, w.code ≠ x := by
  intro ws
  induction ws with
  | nil =>
    intro ids p _ h x hx w hw
    exact absurd hw (List.not_mem_nil w)
  | cons w rest ih =>
    intro ids p hnd h x hx w2 hw2
    simp only [createStocksAux] at h
    by_cases hmem : w.code ∈ ids
    · rw [if_pos hmem] at h
      cases hq : normalizeQty w.qty with
      | none => rw [hq] at h ; exact absurd h (by simp)
      | some q =>
        rw [hq] at h
        cases ha : createStocksAux mk rest (ids.erase w.code) with
        | none => rw [ha] at h ; exact absurd h (by simp)
        | some p2 =>
          rw [ha] at h
          simp only [Option.some.injEq] at h
          subst h
          have hsub : x ∈ ids.erase w.code := createStocksAux_subset mk rest _ p2 ha x hx
          rcases List.mem_cons.mp hw2 with heq | hmem2
          · intro he
            have hx2 := (hnd.mem_erase_iff).mp hsub
            exact hx2.1 (by rw [← he, heq])
          · exact ih _ p2 (hnd.erase _) ha x hx w2 hmem2
    · rw [if_neg hmem] at h
      rcases List.mem_cons.mp hw2 with heq | hmem2
      · intro he
        have hsub : x ∈ ids := createStocksAux_subset mk rest _ p h x hx
        apply hmem
        rw [← heq, he]
        exact hsub
      · exact ih _ p hnd h x hx w2 hmem2

theorem createStocksAux_matched {σ : Type} (mk : String → Int → σ) :
    ∀ (ws : List InvRecord) (ids : List String) (p : List σ × List String),
      createStocksAux mk ws ids = some p →
      ∀ r ∈ p.1, ∃ w ∈ ws, ∃ q, normalizeQty w.qty = some q ∧ r = mk w.code q := by
  intro ws
  induction ws with
  | nil =>
    intro ids p h r hr
    simp only [createStocksAux, Option.some.injEq] at h
    subst h
    exact absurd hr (List.not_mem_nil r)
  | cons w rest ih =>
    intro ids p h r hr
    simp only [createStocksAux] at h
    by_cases hmem : w.code ∈ ids
    · rw [if_pos hmem] at h
      cases hq : normalizeQty w.qty with
      | none => rw [hq] at h ; exact absurd h (by simp)
      | some q =>
        rw [hq] at h
        cases ha : createStocksAux mk rest (ids.erase w.code) with
        | none => rw [ha] at h ; exact absurd h (by simp)
        | some p2 =>
          rw [ha] at h
          simp only [Option.some.injEq] at h
          subst h
          rcases List.mem_cons.mp hr with heq | hmem2
          · exact ⟨w, List.mem_cons_self w rest, q, hq, heq⟩
          · obtain ⟨w2, hw2, q2, hq2, he2⟩ := ih _ p2 ha r hmem2
            exact ⟨w2, List.mem_cons_of_mem w hw2, q2, hq2, he2⟩
    · rw [if_neg hmem] at h
      obtain ⟨w2, hw2, q2, hq2, he2⟩ := ih _ p h r hr
      exact ⟨w2, List.mem_cons_of_mem w hw2, q2, hq2, he2⟩

theorem create_stocks_gen_eq {σ : Type} (mk : String → Int → σ)
    (remnants : List InvRecord) (ids : List String) (out : List σ) (remaining : List String)
    (h : create_stocks_gen mk remnants ids = some (out, remaining)) :
    ∃ s, createStocksAux mk remnants ids = some (s, remaining) ∧
         out = s ++ remaining.map (fun id => mk id 0) := by
  unfold create_stocks_gen at h
  cases ha : createStocksAux mk remnants ids with
  | none => rw [ha] at h ; exact absurd h (by simp)
  | some p =>
    obtain ⟨s0, rem0⟩ := p
    rw [ha] at h
    simp only [Option.map_some', Option.some.injEq, Prod.mk.injEq] at h
    obtain ⟨h1, h2⟩ := h
    subst h2
    exact ⟨s0, rfl, h1.symm⟩

theorem create_stocks_gen_spec {σ : Type} (mk : String → Int → σ) (proj : σ → String)
    (hproj : ∀ c q, proj (mk c q) = c)
    (remnants : List InvRecord) (ids : List String) (out : List σ) (remaining : List String)
    (h : create_stocks_gen mk remnants ids = some (out, remaining)) :
    (out.map proj).Perm ids ∧
    (∀ r ∈ out, (∃ w ∈ remnants, ∃ q, normalizeQty w.qty = some q ∧ r = mk w.code q)
       ∨ ∃ id0, r = mk id0 0) := by
  obtain ⟨s, ha, rfl⟩ := create_stocks_gen_eq mk remnants ids out remaining h
  constructor
  · have hmap : ((s ++ remaining.map fun id => mk id 0).map proj) = s.map proj ++ remaining := by
      rw [List.map_append, List.map_map]
      congr 1
      have hco : (proj ∘ fun id => mk id 0) = fun id => id := by
        funext id
        simp [hproj]
      rw [hco]
      simp
    rw [hmap]
    exact createStocksAux_perm mk proj hproj remnants ids (s, remaining) ha
  · intro r hr
    rcases List.mem_append.mp hr with hr1 | hr2
    · exact Or.inl (createStocksAux_matched mk remnants ids (s, remaining) ha r hr1)
    · obtain ⟨id0, _, he⟩ := List.mem_map.mp hr2
      exact Or.inr ⟨id0, he.symm⟩

theorem create_stocks_gen_leftover {σ : Type} (mk : String → Int → σ)
    (remnants : List InvRecord) (ids : List String) (out : List σ) (remaining : List String)
    (hnd : ids.Nodup) (h : create_stocks_gen mk remnants ids = some (out, remaining)) :
    ∀ x ∈ remaining, ∀ w ∈ remnants, w.code ≠ x := by
  obtain ⟨s, ha, _⟩ := create_stocks_gen_eq mk remnants ids out remaining h
  exact createStocksAux_leftover mk remnants ids (s, remaining) hnd ha

theorem divide_ne_nil {α : Type} {n : Nat} {lst : List α}
    (hn : 0 < n) (h : lst ≠ []) : divide lst n ≠ [] := by
  have hL : 0 < lst.length := List.length_pos.mpr h
  have : 0 < (divide lst n).length := by
    rw [length_divide]
    have : 1 * n ≤ lst.length + n - 1 := by omega
    have := (Nat.le_div_iff_mul_le hn).mpr this
    omega
  exact List.length_pos.mp this

theorem marketPricesAux_spec (ids : List String) :
    ∀ (ws : List InvRecord) (out : List MPrice), marketPricesAux ids ws = some out →
      ∀ r ∈ out, r.id ∈ ids ∧ (∃ w ∈ ws, w.code = r.id) ∧ r.currencyId = "RUR" := by
  intro ws
  induction ws with
  | nil =>
    intro out h r hr
    simp only [marketPricesAux, Option.some.injEq] at h
    subst h
    exact absurd hr (List.not_mem_nil r)
  | cons w rest ih =>
    intro out h r hr
    simp only [marketPricesAux] at h
    by_cases hmem : w.code ∈ ids
    · rw [if_pos hmem] at h
      cases hp : pyInt (price_conversion w.price) with
      | none => rw [hp] at h ; exact absurd h (by simp)
      | some v =>
        rw [hp] at h
        cases ha : marketPricesAux ids rest with
        | none => rw [ha] at h ; exact absurd h (by simp)
        | some ps =>
          rw [ha] at h
          simp only [Option.map_some', Option.some.injEq] at h
          subst h
          rcases List.mem_cons.mp hr with heq | hmem2
          · subst heq
            exact ⟨hmem, ⟨w, List.mem_cons_self w rest, rfl⟩, rfl⟩
          · obtain ⟨h1, ⟨w2, hw2, h2⟩, h3⟩ := ih ps ha r hmem2
            exact ⟨h1, ⟨w2, List.mem_cons_of_mem w hw2, h2⟩, h3⟩
    · rw [if_neg hmem] at h
      obtain ⟨h1, ⟨w2, hw2, h2⟩, h3⟩ := ih out h r hr
      exact ⟨h1, ⟨w2, List.mem_cons_of_mem w hw2, h2⟩, h3⟩

theorem seller_create_prices_mem (remnants : List InvRecord) (ids : List String) :
    ∀ r ∈ (seller_create_prices remnants ids).1,
      ∃ w ∈ remnants, w.code ∈ ids ∧
        r = SellerPrice.mk ("UNKNOWN") ("RUB") w.code ("0") (price_conversion w.price) := by
  intro r hr
  simp only [seller_create_prices, List.mem_filterMap] at hr
  obtain ⟨w, hw, hf⟩ := hr
  by_cases hmem : w.code ∈ ids
  · rw [if_pos hmem] at hf
    simp only [Option.some.injEq] at hf
    exact ⟨w, hw, hmem, hf.symm⟩
  · rw [if_neg hmem] at hf
    exact absurd hf (by simp)

theorem sendAllTr_stock (campaign : String) (send : String → List MStock → Except PyExc Unit) :
    ∀ (cs : List (List MStock)) (c : MApiCall), c ∈ (sendAllTr campaign send cs).2 →
      ∃ chunk, c = MApiCall.stockUpdate campaign chunk := by
  intro cs
  induction cs with
  | nil =>
    intro c hc
    exact absurd hc (List.not_mem_nil c)
  | cons ch rest ih =>
    intro c hc
    simp only [sendAllTr] at hc
    cases h : send campaign ch with
    | error e =>
      rw [h] at hc
      rcases List.mem_singleton.mp hc with rfl
      exact ⟨ch, rfl⟩
    | ok u =>
      rw [h] at hc
      simp only at hc
      rcases List.mem_cons.mp hc with heq | hmem2
      · exact ⟨ch, heq⟩
      · exact ih c hmem2

theorem market_campaign_stock (fx : MarketFx) (campaign warehouse : String)
    (remnants : List InvRecord) :
    ∀ c ∈ (market_campaign fx campaign warehouse remnants).2,
      ∃ camp chunk, c = MApiCall.stockUpdate camp chunk := by
  intro c hc
  unfold market_campaign at hc
  split at hc
  · exact absurd hc (List.not_mem_nil c)
  · split at hc
    · exact absurd hc (List.not_mem_nil c)
    · obtain ⟨chunk, he⟩ := sendAllTr_stock campaign fx.sendStocks _ c hc
      exact ⟨campaign, chunk, he⟩

theorem market_try_stock (fx : MarketFx) (remnants : List InvRecord) :
    ∀ c ∈ (market_try fx remnants).2, ∃ camp chunk, c = MApiCall.stockUpdate camp chunk := by
  intro c hc
  unfold market_try at hc
  split at hc
  · rename_i e trace heq
    have hm : c ∈ (market_campaign fx fx.campaign_fbs_id fx.warehouse_fbs_id remnants).2 := by
      rw [heq]
      exact hc
    exact market_campaign_stock fx _ _ remnants c hm
  · rename_i u trace heq
    split at hc
    rename_i res trace2 heq2
    have hm : c ∈ trace ++ trace2 := hc
    rcases List.mem_append.mp hm with hm2 | hm2
    · have h3 : c ∈ (market_campaign fx fx.campaign_fbs_id fx.warehouse_fbs_id remnants).2 := by
        rw [heq]
        exact hm2
      exact market_campaign_stock fx _ _ remnants c h3
    · have h3 : c ∈ (market_campaign fx fx.campaign_dbs_id fx.warehouse_dbs_id remnants).2 := by
        rw [heq2]
        exact hm2
      exact market_campaign_stock fx _ _ remnants c h3

theorem market_main_stock (fx : MarketFx) :
    ∀ c ∈ (market_main fx).2, ∃ camp chunk, c = MApiCall.stockUpdate camp chunk := by
  intro c hc
  unfold market_main at hc
  split at hc
  · exact absurd hc (List.not_mem_nil c)
  · rename_i remnants hdl
    split at hc
    · rename_i u trace heq
      have hm : c ∈ (market_try fx remnants).2 := by
        rw [heq]
        exact hc
      exact market_try_stock fx remnants c hm
    · rename_i e trace heq
      have hm : c ∈ (market_try fx remnants).2 := by
        rw [heq]
        exact hc
      exact market_try_stock fx remnants c hm

/-! The claims. -/

/-- C2: Quantity normalization: the normalized stock value used inside both
`create_stocks` functions is 100 for the raw string `">10"`, 0 for `"1"`,
and the direct integer parse (`pyInt`) for every other string; in
particular `"42"` gives 42 and `"0"` gives 0. -/
theorem c2_quantity_normalization :
    normalizeQty (">10") = some 100 ∧ normalizeQty ("1") = some 0 ∧
    (∀ s : String, s ≠ ">10" → s ≠ "1" → normalizeQty s = pyInt s) ∧
    normalizeQty ("42") = some 42 ∧ normalizeQty ("0") = some 0 := by
  refine ⟨by decide, by decide, ?_, by decide, by decide⟩
  intro s h1 h2
  simp [normalizeQty, h1, h2]

/-- Witness for C2: the general clause evaluated at the raw string `"7"`. -/
theorem c2_witness : normalizeQty ("7") = pyInt ("7") :=
  c2_quantity_normalization.2.2.1 ("7") (by decide) (by decide)

/-- C3: Price normalization: `price_conversion` takes the piece before the
first dot and keeps only its digits (the spec-worded `beforeFirstDotDigits`),
with no rounding, and on the three sample raw prices it yields the digit
strings denoting 5990, 1200 and 100. -/
theorem c3_price_normalization :
    (∀ p : String, price_conversion p = beforeFirstDotDigits p) ∧
    price_conversion samplePrice5990 = "5990" ∧ pyInt ("5990") = some 5990 ∧
    price_conversion samplePrice1200 = "1200" ∧ pyInt ("1200") = some 1200 ∧
    price_conversion ("100 руб.") = "100" ∧ pyInt ("100") = some 100 := by
  refine ⟨price_conversion_eq_spec, by decide, by decide, by decide, by decide, by decide,
    by decide⟩

/-- C5: Batch splitting: for chunk size `n > 0`, `divide` yields
`(L + n - 1) / n` chunks (the ceiling of `L / n`), every chunk except
possibly the last has size exactly `n`, every chunk is nonempty and of size
at most `n`, and the chunks concatenate back to the original list in
order. -/
theorem c5_divide_batches {α : Type} (lst : List α) (n : Nat) (hn : 0 < n) :
    (divide lst n).length = (lst.length + n - 1) / n ∧
    (∀ i, i + 1 < (divide lst n).length → ((divide lst n).getD i []).length = n) ∧
    (∀ c ∈ divide lst n, c ≠ [] ∧ c.length ≤ n) ∧
    (divide lst n).flatten = lst := by
  refine ⟨length_divide lst n, ?_, ?_, divide_flatten n hn lst⟩
  · intro i hi
    exact divide_getD_length n i hn lst hi
  · intro c hc
    exact divide_mem hn hc

/-- Witness for C5: the concatenation clause at the list `[1, 2, 3, 4, 5]`
with chunk size 2. -/
theorem c5_witness : (divide [1, 2, 3, 4, 5] 2).flatten = [1, 2, 3, 4, 5] :=
  (c5_divide_batches [1, 2, 3, 4, 5] 2 (by decide)).2.2.2

/-- C1: Stock transform completeness: for both `create_stocks` functions,
when the call returns a record list, its offer ids are a permutation of the
known offer ids (hence equal as a set), under pairwise-distinct known ids
each known id appears in exactly one record, and every record is either
matched (its quantity is the normalization of a matching inventory row) or
a zero-quantity default. -/
theorem c1_stock_transform_completeness (remnants : List InvRecord) (ids : List String) :
    (∀ out remaining, seller_create_stocks remnants ids = some (out, remaining) →
      ((out.map SellerStock.offer_id).Perm ids ∧
       (out.map SellerStock.offer_id).toFinset = ids.toFinset ∧
       (ids.Nodup → ∀ x ∈ ids, (out.map SellerStock.offer_id).count x = 1) ∧
       ∀ r ∈ out,
         (∃ w ∈ remnants, w.code = r.offer_id ∧ normalizeQty w.qty = some r.stock)
           ∨ r.stock = 0)) ∧
    (∀ wh date out remaining, market_create_stocks remnants ids wh date = some (out, remaining) →
      ((out.map MStock.sku).Perm ids ∧
       (out.map MStock.sku).toFinset = ids.toFinset ∧
       (ids.Nodup → ∀ x ∈ ids, (out.map MStock.sku).count x = 1) ∧
       ∀ r ∈ out,
         (∃ w ∈ remnants, w.code = r.sku ∧ ∃ q, normalizeQty w.qty = some q ∧
             r.items = [MStockItem.mk q ("FIT") date])
           ∨ r.items = [MStockItem.mk 0 ("FIT") date])) := by
  constructor
  · intro out remaining h
    obtain ⟨hperm, hmz⟩ := create_stocks_gen_spec _ SellerStock.offer_id (fun c q => rfl)
      remnants ids out remaining h
    refine ⟨hperm, List.toFinset_eq_of_perm _ _ hperm, ?_, ?_⟩
    · intro hnd x hx
      rw [hperm.count_eq x]
      exact List.count_eq_one_of_mem hnd hx
    · intro r hr
      rcases hmz r hr with ⟨w, hw, q, hq, he⟩ | ⟨id0, he⟩
      · subst he
        exact Or.inl ⟨w, hw, rfl, hq⟩
      · subst he
        exact Or.inr rfl
  · intro wh date out remaining h
    obtain ⟨hperm, hmz⟩ := create_stocks_gen_spec _ MStock.sku (fun c q => rfl)
      remnants ids out remaining h
    refine ⟨hperm, List.toFinset_eq_of_perm _ _ hperm, ?_, ?_⟩
    · intro hnd x hx
      rw [hperm.count_eq x]
      exact List.count_eq_one_of_mem hnd hx
    · intro r hr
      rcases hmz r hr with ⟨w, hw, q, hq, he⟩ | ⟨id0, he⟩
      · subst he
        exact Or.inl ⟨w, hw, rfl, q, hq, rfl⟩
      · subst he
        exact Or.inr rfl

/-- Witness for C1: the seller permutation clause on the inventory row with
code "A" and quantity ">10" against the known ids ["A", "B"]. -/
theorem c1_witness :
    (([SellerStock.mk ("A") 100, SellerStock.mk ("B") 0]).map SellerStock.offer_id).Perm
      (["A", "B"]) :=
  ((c1_stock_transform_completeness [InvRecord.mk ("A") (">10") ("x")] (["A", "B"])).1
    [SellerStock.mk ("A") 100, SellerStock.mk ("B") 0] (["B"]) (by decide)).1

/-- C4: Price transform selectivity: every record output by either
`create_prices` has an offer id present both in the known-offer-id list and
as an inventory code; a known id matching no inventory code produces no
record; and the seller price transform leaves the offer-id list
unmodified. -/
theorem c4_price_transform_selectivity (remnants : List InvRecord) (ids : List String) :
    (∀ r ∈ (seller_create_prices remnants ids).1,
        r.offer_id ∈ ids ∧ ∃ w ∈ remnants, w.code = r.offer_id) ∧
    ((seller_create_prices remnants ids).2 = ids) ∧
    (∀ x ∈ ids, (∀ w ∈ remnants, w.code ≠ x) →
        ∀ r ∈ (seller_create_prices remnants ids).1, r.offer_id ≠ x) ∧
    (∀ out, market_create_prices remnants ids = some out →
        ∀ r ∈ out, r.id ∈ ids ∧ ∃ w ∈ remnants, w.code = r.id) := by
  have hsel : ∀ r ∈ (seller_create_prices remnants ids).1,
      r.offer_id ∈ ids ∧ ∃ w ∈ remnants, w.code = r.offer_id := by
    intro r hr
    obtain ⟨w, hw, hmem, he⟩ := seller_create_prices_mem remnants ids r hr
    subst he
    exact ⟨hmem, w, hw, rfl⟩
  refine ⟨hsel, rfl, ?_, ?_⟩
  · intro x hx hno r hr he
    obtain ⟨hin, w, hw, hcode⟩ := hsel r hr
    exact hno w hw (by rw [hcode, he])
  · intro out h r hr
    obtain ⟨h1, h2, h3⟩ := marketPricesAux_spec ids remnants out h r hr
    exact ⟨h1, h2⟩

/-- Witness for C4: the market clause on the row with code "A" and price
"100 руб." against the known ids ["A"]. -/
theorem c4_witness :
    (MPrice.mk ("A") 100 ("RUR")).id ∈ (["A"] : List String) ∧
    ∃ w ∈ [InvRecord.mk ("A") ("5") ("100 руб.")], w.code = (MPrice.mk ("A") 100 ("RUR")).id :=
  (c4_price_transform_selectivity [InvRecord.mk ("A") ("5") ("100 руб.")] (["A"])).2.2.2
    [MPrice.mk ("A") 100 ("RUR")] (by decide) (MPrice.mk ("A") 100 ("RUR")) (by decide)

/-- C9: In seller.py `main` the offer-id list object mutated by
`create_stocks` (which removes every matched code) is then passed to
`create_prices`; with pairwise-distinct fetched offer ids, the leftover list
contains no inventory code, so `create_prices` returns the empty list. -/
theorem c9_seller_aliasing (remnants : List InvRecord) (ids : List String)
    (stocks : List SellerStock) (remaining : List String)
    (hnd : ids.Nodup) (h : seller_create_stocks remnants ids = some (stocks, remaining)) :
    (seller_create_prices remnants remaining).1 = [] := by
  have hno := create_stocks_gen_leftover _ remnants ids stocks remaining hnd h
  simp only [seller_create_prices]
  apply List.filterMap_eq_nil_iff.mpr
  intro w hw
  have hnot : w.code ∉ remaining := fun hin => hno w.code hin w hw rfl
  simp [hnot]

/-- Witness for C9: the run on the inventory row with code "A" against the
fetched ids ["A", "B"], whose leftover list is ["B"]. -/
theorem c9_witness :
    (seller_create_prices [InvRecord.mk ("A") ("5") ("100 руб.")] (["B"])).1 = [] :=
  c9_seller_aliasing [InvRecord.mk ("A") ("5") ("100 руб.")] (["A", "B"])
    [SellerStock.mk ("A") 5, SellerStock.mk ("B") 0] (["B"]) (by decide) (by decide)

/-- C8 counterexample: on the inventory row with code "A" and raw price
"руб." (no digit before the first dot), the seller price transform outputs a
record whose price string is empty and denotes no integer, refuting the
claim that every produced record carries its price value as an integer. -/
theorem c8_counterexample :
    ¬ (∀ r ∈ (seller_create_prices [InvRecord.mk ("A") ("5") ("руб.")] (["A"])).1,
        (pyInt r.price).isSome) := by
  decide

/-- C8 (amended): every seller price record carries currency_code "RUB",
auto_action "UNKNOWN", old_price "0" and a price that is a digit string,
denoting an integer whenever it is nonempty (a raw price with no digits
before its first dot yields the empty price string); every market price
record carries its value as an integer (by construction of `MPrice`) with
currencyId "RUR". -/
theorem c8_price_record_shape (remnants : List InvRecord) (ids : List String) :
    (∀ r ∈ (seller_create_prices remnants ids).1,
        r.currency_code = "RUB" ∧ r.auto_action_enabled = "UNKNOWN" ∧ r.old_price = "0" ∧
        r.price.data.all Char.isDigit ∧
        (r.price ≠ "" → (pyInt r.price).isSome)) ∧
    (∀ out, market_create_prices remnants ids = some out →
        ∀ r ∈ out, r.currencyId = "RUR") := by
  constructor
  · intro r hr
    obtain ⟨w, hw, hmem, he⟩ := seller_create_prices_mem remnants ids r hr
    subst he
    refine ⟨rfl, rfl, rfl, price_conversion_all_digits w.price, ?_⟩
    intro hne
    have hd := price_conversion_all_digits w.price
    have hne2 : (price_conversion w.price).data ≠ [] := by
      intro h0
      apply hne
      show String.mk (price_conversion w.price).data = ""
      rw [h0]
    rw [show price_conversion w.price = String.mk (price_conversion w.price).data from rfl,
      pyInt_of_digits hne2 hd]
    rfl
  · intro out h r hr
    exact (marketPricesAux_spec ids remnants out h r hr).2.2

/-- Witness for C8 (amended): the seller clause on the record produced from
the row with code "A" and raw price "100 руб.". -/
theorem c8_witness :
    (SellerPrice.mk ("UNKNOWN") ("RUB") ("A") ("0") ("100")).currency_code = "RUB" ∧
    (SellerPrice.mk ("UNKNOWN") ("RUB") ("A") ("0") ("100")).auto_action_enabled = "UNKNOWN" ∧
    (SellerPrice.mk ("UNKNOWN") ("RUB") ("A") ("0") ("100")).old_price = "0" ∧
    (SellerPrice.mk ("UNKNOWN") ("RUB") ("A") ("0") ("100")).price.data.all Char.isDigit ∧
    ((SellerPrice.mk ("UNKNOWN") ("RUB") ("A") ("0") ("100")).price ≠ "" →
      (pyInt (SellerPrice.mk ("UNKNOWN") ("RUB") ("A") ("0") ("100")).price).isSome) :=
  (c8_price_record_shape [InvRecord.mk ("A") ("5") ("100 руб.")] (["A"])).1
    (SellerPrice.mk ("UNKNOWN") ("RUB") ("A") ("0") ("100")) (by decide)

/-- C6 counterexample: the chunk size of market.py `upload_prices` is 500,
which is used at an upload call site but is not one of 100, 900, 1000,
2000. -/
theorem c6_counterexample :
    market_upload_prices_chunk ∈ uploadChunkSizes ∧
    market_upload_prices_chunk ∉ ([100, 900, 1000, 2000] : List Nat) := by
  decide

/-- C6 (amended): every upload call site splits its records with a chunk
size drawn from 100, 500, 900, 1000, 2000 (market `upload_prices` uses
500), and each site issues one upload call per chunk, in order, the chunks
concatenating back to the full record list. -/
theorem c6_chunk_sizes (stocks : List SellerStock) (prices : List SellerPrice)
    (mstocks : List MStock) (mprices : List MPrice) :
    (∀ k ∈ uploadChunkSizes, k ∈ ([100, 500, 900, 1000, 2000] : List Nat)) ∧
    (seller_main_stock_batches stocks).flatten = stocks ∧
    (seller_main_price_batches prices).flatten = prices ∧
    (seller_upload_prices_batches prices).flatten = prices ∧
    (seller_upload_stocks_batches stocks).flatten = stocks ∧
    (market_upload_prices_batches mprices).flatten = mprices ∧
    (market_upload_stocks_batches mstocks).flatten = mstocks ∧
    (market_main_stock_batches mstocks).flatten = mstocks ∧
    (∀ c ∈ market_upload_prices_batches mprices, c.length ≤ 500) := by
  refine ⟨by decide, divide_flatten _ (by decide) _, divide_flatten _ (by decide) _,
    divide_flatten _ (by decide) _, divide_flatten _ (by decide) _,
    divide_flatten _ (by decide) _, divide_flatten _ (by decide) _,
    divide_flatten _ (by decide) _, ?_⟩
  intro c hc
  exact (divide_mem (by decide) hc).2

/-- Witness for C6 (amended): the membership clause at chunk size 100. -/
theorem c6_witness : (100 : Nat) ∈ ([100, 500, 900, 1000, 2000] : List Nat) :=
  (c6_chunk_sizes [] [] [] []).1 100 (by decide)

/-- C7 counterexample: in market.py `main` the spreadsheet download runs
before the `try` statement, so a download failure escapes the orchestrator
uncaught, refuting the claim that every exception of a run — including data
errors from the download/parse step — is caught by the top-level handler. -/
theorem c7_counterexample :
    (market_main (MarketFx.mk ("fbs") ("dbs") ("wf") ("wd") ("d")
        (Except.error (PyExc.otherError ("bad spreadsheet")))
        (fun _ => Except.ok []) (fun _ _ => Except.ok ()))).1
      = Report.uncaught (PyExc.otherError ("bad spreadsheet")) := rfl

/-- C7 (amended): the seller orchestrator catches every exception of its
run and classifies it (read-timeout gives the dedicated timed-out message,
a connection failure is reported with its underlying error, anything else
generically); the market orchestrator does the same for every exception
raised inside its `try` block, but an exception from the spreadsheet
download step escapes it uncaught. -/
theorem c7_error_classification :
    (∀ (fx : SellerFx) (e : PyExc), seller_main fx ≠ Report.uncaught e) ∧
    (∀ (fx : SellerFx) (e : PyExc), seller_try fx = Except.error e →
        seller_main fx = handleExc e) ∧
    (handleExc PyExc.readTimeout = Report.timeoutMsg) ∧
    (∀ m, handleExc (PyExc.connectionError m) = Report.connMsg m) ∧
    (∀ m, handleExc (PyExc.otherError m) = Report.genericMsg m) ∧
    (∀ (fx : MarketFx) (remnants : List InvRecord), fx.download = Except.ok remnants →
        ∀ e, (market_main fx).1 ≠ Report.uncaught e) ∧
    (∀ (fx : MarketFx) (e : PyExc), fx.download = Except.error e →
        (market_main fx).1 = Report.uncaught e) := by
  refine ⟨?_, ?_, rfl, fun m => rfl, fun m => rfl, ?_, ?_⟩
  · intro fx e
    unfold seller_main
    cases h : seller_try fx with
    | ok u => simp
    | error e2 => cases e2 <;> simp [handleExc]
  · intro fx e h
    unfold seller_main
    rw [h]
  · intro fx remnants hd e
    unfold market_main
    rw [hd]
    show (match market_try fx remnants with
      | (Except.ok _, trace) => (Report.ok, trace)
      | (Except.error e2, trace) => (handleExc e2, trace)).1 ≠ Report.uncaught e
    rcases htry : market_try fx remnants with ⟨res, trace⟩
    cases res with
    | ok u => simp
    | error e2 => cases e2 <;> simp [handleExc]
  · intro fx e hd
    unfold market_main
    rw [hd]

/-- Witness for C7 (amended): the seller classification clause at a run
whose offer-id fetch times out. -/
theorem c7_witness :
    seller_main (SellerFx.mk (Except.error PyExc.readTimeout) (Except.ok [])
        (fun _ => Except.ok ()) (fun _ => Except.ok ()))
      = handleExc PyExc.readTimeout :=
  c7_error_classification.2.1
    (SellerFx.mk (Except.error PyExc.readTimeout) (Except.ok [])
      (fun _ => Except.ok ()) (fun _ => Except.ok ()))
    PyExc.readTimeout rfl

/-- C10: the market orchestrator never issues a price-update API request:
`upload_prices` is called without awaiting the coroutine, so its body never
runs and the trace of every run contains only stock updates; yet the body,
were it executed on a nonempty price list, would issue at least one
`update_price` call. -/
theorem c10_market_prices_never_uploaded (fx : MarketFx) :
    (∀ c ∈ (market_main fx).2, ∀ campaign chunk, c ≠ MApiCall.priceUpdate campaign chunk) ∧
    (∀ (campaign : String) (prices : List MPrice), prices ≠ [] →
        market_upload_prices_calls campaign prices ≠ []) := by
  constructor
  · intro c hc campaign chunk he
    obtain ⟨camp2, chunk2, he2⟩ := market_main_stock fx c hc
    rw [he] at he2
    exact absurd he2 (by simp)
  · intro campaign prices hne hmap
    unfold market_upload_prices_calls at hmap
    have hdiv : divide prices market_upload_prices_chunk ≠ [] :=
      divide_ne_nil (by decide) hne
    exact hdiv (List.map_eq_nil_iff.mp hmap)

/-- Witness for C10: the no-price-calls clause on a run with a failing
download, and the nonemptiness clause on a one-record price list. -/
theorem c10_witness :
    market_upload_prices_calls ("X") [MPrice.mk ("A") 1 ("RUR")] ≠ [] :=
  (c10_market_prices_never_uploaded (MarketFx.mk ("fbs") ("dbs") ("wf") ("wd") ("d")
      (Except.error (PyExc.otherError ("e"))) (fun _ => Except.ok [])
      (fun _ _ => Except.ok ()))).2
    ("X") [MPrice.mk ("A") 1 ("RUR")] (by decide)

end SellerApis
